import Mathlib

/-!
Shallow embedding of the round-resolution and player-state engine of
`src/game.js` (a turn-based dice-elimination game), together with proofs of
the specification's claims about it.

Modelling conventions:
* JS numbers in the engine are integers in every relevant spot; die tiers are
  `ℕ`, round scores `ℤ` (rolls are produced by `Math.ceil`, an `Int`).
* `Math.random()` is modelled as an injected value (or stream of values) of
  type `ℚ`; the JS contract is `0 ≤ r < 1`.
* `Array.prototype.indexOf` / `findIndex` are modelled by `firstIdx`
  (first index of a value, `none` when absent), `Array.prototype.splice(i,1)`
  by `List.eraseIdx`, `Array.prototype.sort((a,b) => b-a)` by an insertion
  sort for the descending order (same multiset, sorted descending; equal
  numbers are indistinguishable, so stability differences are invisible).
* JS objects are compared by reference in the source (`p !== winner`); lists
  of players are therefore handled positionally, by index.
-/

namespace DiceGame

/-- The Die Tier Table: `DICE_SIDES`, src/game.js line 7. -/
def DICE_SIDES : List ℕ := [4, 6, 8, 10, 12, 20, 100]

/-- The difficulty table `DIFFICULTY` (src/game.js lines 21-25): the target
number of terminal-tier (D100) dice for each difficulty name; unknown names do
not occur. -/
def targetD100sOf (difficulty : String) : ℕ :=
  if difficulty = "easy" then 1
  else if difficulty = "medium" then 3
  else if difficulty = "hard" then 5
  else 0

/-- The `Player` class fields, src/game.js lines 31-41. -/
structure Player where
  name : String
  isHuman : Bool
  dice : List ℕ
  madeFirstChoice : Bool
  eliminated : Bool
  chosenDie : ℕ
  roundScore : ℤ
  roundRolls : List ℤ
deriving DecidableEq

/-- The `Player` constructor, src/game.js lines 32-41: one starting D4,
protected, alive. -/
def mkPlayer (name : String) (isHuman : Bool) : Player :=
  { name := name
    isHuman := isHuman
    dice := [4]
    madeFirstChoice := false
    eliminated := false
    chosenDie := 4
    roundScore := 0
    roundRolls := [] }

/-- Default used to make JS index accesses total; never reached on the
in-range accesses the source performs. -/
def dummyPlayer : Player := mkPlayer "" false

/-- Getter `isProtected`, src/game.js line 44. -/
def isProtected (p : Player) : Bool := !p.madeFirstChoice

/-- Getter `d100Count`, src/game.js line 46. -/
def d100Count (p : Player) : ℕ := (p.dice.filter (fun d => d == 100)).length

/-- Getter `bestDie`, src/game.js lines 48-50. -/
def bestDie (p : Player) : ℕ :=
  if p.dice.length > 0 then p.dice.foldl max 0 else 0

/-- JS `Array.prototype.findIndex`-style first index of the value `a`
(`none` when `a` is absent); `indexOf` returns `-1` instead of `none`. -/
def firstIdx (a : ℕ) : List ℕ → Option ℕ
  | [] => none
  | b :: l => if b = a then some 0 else (firstIdx a l).map (· + 1)

/-- JS `Array.prototype.indexOf` on a list of naturals: first index or -1. -/
def jsIndexOf (l : List ℕ) (a : ℕ) : ℤ :=
  match firstIdx a l with
  | some i => (i : ℤ)
  | none => -1

/-- JS array read `l[i]` for an `Int` index known to be in range in the
source; out-of-range reads (which the source never performs here) give 0. -/
def jsGetD (l : List ℕ) (i : ℤ) : ℕ := l.getD i.toNat 0

/-- JS `arr.sort((a, b) => b - a)`: sort descending. -/
def sortDesc (l : List ℕ) : List ℕ := l.insertionSort (fun a b => a ≥ b)

/-- `Math.floor(r * n)` as a list index, as in
`eligible[Math.floor(Math.random() * eligible.length)]` and the tiebreak
pick; `r` is the injected `Math.random()` value. -/
def pickIdx (r : ℚ) (n : ℕ) : ℕ := (⌊r * (n : ℚ)⌋).toNat

/-- `Player.rollForRound`, src/game.js lines 52-61: roll the chosen die once
per side, pushing each roll and accumulating the score.  The i-th
`Math.random()` call is `rand i`; the JS roll expression is
`Math.ceil(Math.random() * sides)`. -/
def rollForRound (rand : ℕ → ℚ) (p : Player) : Player :=
  let sides := p.chosenDie
  let acc := (List.range sides).foldl
    (fun (a : List ℤ × ℤ) i =>
      let roll : ℤ := ⌈rand i * (sides : ℚ)⌉
      (a.1 ++ [roll], a.2 + roll))
    ([], 0)
  { p with roundRolls := acc.1, roundScore := acc.2 }

/-- The two winner choices, src/game.js line 63. -/
inductive Choice
  | duplicate
  | upgrade
deriving DecidableEq

/-- `Player.applyChoice`, src/game.js lines 63-80. -/
def applyChoice (choice : Choice) (p : Player) : Player × ℕ :=
  let prevDie := p.chosenDie
  let q : Player := { p with madeFirstChoice := true }
  match choice with
  | .duplicate =>
      ({ q with dice := sortDesc (q.dice ++ [q.chosenDie]) }, prevDie)
  | .upgrade =>
      let idx := jsIndexOf DICE_SIDES q.chosenDie
      let nextIdx : ℤ := min (idx + 1) ((DICE_SIDES.length : ℤ) - 1)
      let newDice :=
        match firstIdx q.chosenDie q.dice with
        | some dieIdx => q.dice.set dieIdx (jsGetD DICE_SIDES nextIdx)
        | none => q.dice
      ({ q with dice := sortDesc newDice }, prevDie)

/-- `Player.loseRandomDie`, src/game.js lines 83-102; `r` is the injected
`Math.random()` value used for the pick.  Returns the lost die (or `none`)
together with the updated player. -/
def loseRandomDie (r : ℚ) (p : Player) : Option ℕ × Player :=
  if p.dice.length = 0 then (none, p)
  else
    let eligible := List.range p.dice.length
    if isProtected p then
      match firstIdx 4 p.dice with
      | some d4Idx =>
          if p.dice.length = 1 then (none, p)
          else
            let eligible2 := eligible.filter (fun i => i != d4Idx)
            if eligible2.length = 0 then (none, p)
            else
              let pick := eligible2.getD (pickIdx r eligible2.length) 0
              (some (p.dice.getD pick 0), { p with dice := p.dice.eraseIdx pick })
      | none =>
          if eligible.length = 0 then (none, p)
          else
            let pick := eligible.getD (pickIdx r eligible.length) 0
            (some (p.dice.getD pick 0), { p with dice := p.dice.eraseIdx pick })
    else
      let pick := eligible.getD (pickIdx r eligible.length) 0
      (some (p.dice.getD pick 0), { p with dice := p.dice.eraseIdx pick })

/-- `Player.getAIChoice`, src/game.js lines 105-108. -/
def getAIChoice (p : Player) : Choice :=
  if jsIndexOf DICE_SIDES p.chosenDie < (DICE_SIDES.length : ℤ) - 1
  then .upgrade else .duplicate

/-- One step of the max-score scan of `resolveRound` (src/game.js line 316):
`if (p.roundScore > maxScore) maxScore = p.roundScore`. -/
def maxStep (m : ℤ) (p : Player) : ℤ :=
  if p.roundScore > m then p.roundScore else m

/-- The max-score scan of `resolveRound`, src/game.js lines 315-316:
`let maxScore = -1; active.forEach(p => { if (p.roundScore > maxScore) ... })`. -/
def maxScoreOf (active : List Player) : ℤ :=
  active.foldl maxStep (-1)

/-- Indices of `active` tied at the maximal score (src/game.js line 319);
the winner is drawn from these. -/
def tiedIdx (active : List Player) : List ℕ :=
  (List.range active.length).filter
    (fun i => (active.getD i dummyPlayer).roundScore == maxScoreOf active)

/-- The round winner's index in `active`, src/game.js line 320:
`tied[Math.floor(Math.random() * tied.length)]`, `rt` the injected random. -/
def winnerIdxOf (rt : ℚ) (active : List Player) : ℕ :=
  (tiedIdx active).getD (pickIdx rt (tiedIdx active).length) 0

/-- One loser's processing in `resolveRound`, src/game.js lines 332-342:
lose a random die, then flag elimination when the dice ran out. -/
def loseStep (r : ℚ) (p : Player) : Player × Option ℕ :=
  let res := loseRandomDie r p
  let p2 := res.2
  let p3 := if p2.dice.length = 0 then { p2 with eliminated := true } else p2
  (p3, res.1)

/-- The structured outcome of `resolveRound`: winner index, updated active
players, the per-index lost die (`none` at the winner's index and for a
no-loss loser), and the updated shared pool. -/
structure RoundResult where
  winnerIdx : ℕ
  players : List Player
  losses : List (Option ℕ)
  pool : List ℕ
deriving DecidableEq

/-- `resolveRound`, src/game.js lines 313-343, engine effects only (UI calls
dropped).  The winner keeps their dice; every other active player, processed
in active-list order, goes through `loseStep`, and each actually-lost die is
appended to the shared pool in that same order.  `rl i` is the random draw
consumed by the loser at index `i` (the source draws one `Math.random()` per
loser in the same order, so this is the same family of draws indexed by
position); JS compares players by object reference, rendered here as index
comparison with the winner's index. -/
def resolveRound (rt : ℚ) (rl : ℕ → ℚ) (active : List Player) (pool : List ℕ) :
    RoundResult :=
  { winnerIdx := winnerIdxOf rt active
    players := (List.range active.length).map (fun i =>
      if i = winnerIdxOf rt active then active.getD i dummyPlayer
      else (loseStep (rl i) (active.getD i dummyPlayer)).1)
    losses := (List.range active.length).map (fun i =>
      if i = winnerIdxOf rt active then none
      else (loseStep (rl i) (active.getD i dummyPlayer)).2)
    pool := pool ++ (List.range active.length).filterMap (fun i =>
      if i = winnerIdxOf rt active then none
      else (loseStep (rl i) (active.getD i dummyPlayer)).2) }

/-- Possible outcomes of `checkWinCondition`: `winner p` is `endGame(p)`,
`humanLost` is `endGame(null)`, `continued` proceeds to the next round. -/
inductive WinOutcome
  | winner (p : Player)
  | humanLost
  | continued
deriving DecidableEq

/-- `checkWinCondition`, src/game.js lines 450-475: first any player (the
loop does not skip eliminated ones) with enough D100s, then a single
survivor, then human elimination, else continue. -/
def checkWinCondition (target : ℕ) (players : List Player) : WinOutcome :=
  match players.find? (fun p => decide (target ≤ d100Count p)) with
  | some p => .winner p
  | none =>
      let alive := players.filter (fun p => !p.eliminated)
      if alive.length = 1 then .winner (alive.getD 0 dummyPlayer)
      else if (players.getD 0 dummyPlayer).eliminated then .humanLost
      else .continued

/-- `applyHumanChoice`, src/game.js lines 432-446, engine effect only: the
choice is applied to `state.players[0]` (the human, who is the round winner
whenever this is reachable); logging and rendering are dropped. -/
def applyHumanChoice (choice : Choice) (players : List Player) : List Player :=
  match players with
  | [] => []
  | h :: t => (applyChoice choice h).1 :: t

/-- The successor of a die tier in the Die Tier Table (the spec's "next tier
in the Die Tier Table"); meaningful for non-terminal members of the table. -/
def nextTier (d : ℕ) : ℕ := DICE_SIDES.getD ((jsIndexOf DICE_SIDES d).toNat + 1) 0

/-- The session state the engine mutates (`state`, src/game.js lines 115-122,
engine fields only; phase and difficulty do not feed back into the round
logic modelled here). -/
structure GameState where
  players : List Player
  pool : List ℕ
  round : ℕ
deriving DecidableEq

/-- `initGame`, src/game.js lines 193-219, engine effects: one human player
followed by the opponents, empty pool, round counter 0. -/
def initState (names : List String) : GameState :=
  { players := mkPlayer "You" true :: names.map (fun n => mkPlayer n false)
    pool := []
    round := 0 }

/-- Apply an index-aware update to every position of a player list. -/
def overIdx (f : ℕ → Player → Player) (ps : List Player) : List Player :=
  (List.range ps.length).map (fun i => f i (ps.getD i dummyPlayer))

/-- The die selection of `startRound`, src/game.js lines 225-257: every
active player's `chosenDie` is set for the round (AI: `bestDie`; human: a die
picked from their own dice).  The step takes the selected values as an
arbitrary function `sel`, which includes every selection the source can
make; the invariants below are proved over this superset of behaviours. -/
def selectStep (sel : ℕ → ℕ) : List Player → List Player :=
  overIdx (fun i p => if p.eliminated then p else { p with chosenDie := sel i })

/-- The rolling of `executeRound`, src/game.js lines 303-304: every active
player rolls; `rand i` is the random stream of the player at index `i`. -/
def rollStep (rand : ℕ → ℕ → ℚ) : List Player → List Player :=
  overIdx (fun i p => if p.eliminated then p else rollForRound (rand i) p)

/-- The loser processing of `resolveRound` (src/game.js lines 330-343) seen
on the full player list: every active player other than the winner `w` goes
through `loseStep`. -/
def lossStep (w : ℕ) (rl : ℕ → ℚ) : List Player → List Player :=
  overIdx (fun i p => if p.eliminated || i = w then p else (loseStep (rl i) p).1)

/-- The dies the losers forfeit to the shared pool in one round, in
processing order (src/game.js lines 333-336). -/
def poolAdds (w : ℕ) (rl : ℕ → ℚ) (ps : List Player) : List ℕ :=
  (List.range ps.length).filterMap (fun i =>
    let p := ps.getD i dummyPlayer
    if p.eliminated || i = w then none else (loseStep (rl i) p).2)

/-- The winner's choice application (src/game.js lines 352-366 for the AI,
432-446 for the human): `applyChoice` runs on the winner only. -/
def choiceStep (w : ℕ) (c : Choice) : List Player → List Player :=
  overIdx (fun i p => if i = w then (applyChoice c p).1 else p)

/-- One full round of the session: die selection, rolls, loser processing
with pool growth, the winner's choice, round counter bump.  `w` is the
winner's index in the full player list and must denote an active player (in
the source the winner is drawn from the active list). -/
def stepGame (sel : ℕ → ℕ) (rand : ℕ → ℕ → ℚ) (w : ℕ) (rl : ℕ → ℚ) (c : Choice)
    (s : GameState) : GameState :=
  let ps1 := rollStep rand (selectStep sel s.players)
  { players := choiceStep w c (lossStep w rl ps1)
    pool := s.pool ++ poolAdds w rl ps1
    round := s.round + 1 }

/-- Session states the engine can reach: the freshly initialised session and
any sequence of rounds in which each round's winner is an active player. -/
inductive Reachable : GameState → Prop
  | init (names : List String) : Reachable (initState names)
  | step (s : GameState) (sel : ℕ → ℕ) (rand : ℕ → ℕ → ℚ) (w : ℕ) (rl : ℕ → ℚ)
      (c : Choice)
      (hw : (s.players.getD w dummyPlayer).eliminated = false)
      (h : Reachable s) : Reachable (stepGame sel rand w rl c s)

/-- The two per-player invariants of spec §3, stated for one player: `dice`
is empty exactly when the player is eliminated, and a player who has not yet
made a first choice still holds exactly the single starting D4. -/
def InvP (p : Player) : Prop :=
  (p.dice = [] ↔ p.eliminated = true) ∧
  (p.madeFirstChoice = false → p.dice = [4])

/-- `InvP` at every position of a player list. -/
def Inv (ps : List Player) : Prop :=
  ∀ i, i < ps.length → InvP (ps.getD i dummyPlayer)

/-- What the spec asserts of `applyChoice('duplicate')`: one more die, the
multiset extended by exactly one copy of the pre-call `chosenDie`, first
choice marked, pre-call `chosenDie` returned. -/
def DuplicateSpec (p : Player) : Prop :=
  (applyChoice .duplicate p).2 = p.chosenDie ∧
  (applyChoice .duplicate p).1.madeFirstChoice = true ∧
  (applyChoice .duplicate p).1.eliminated = p.eliminated ∧
  (applyChoice .duplicate p).1.dice.length = p.dice.length + 1 ∧
  (applyChoice .duplicate p).1.dice.Perm (p.chosenDie :: p.dice) ∧
  List.Sorted (fun a b => a ≥ b) (applyChoice .duplicate p).1.dice

/-- What the spec asserts of a non-terminal `applyChoice('upgrade')`: same
number of dice, exactly one entry equal to the pre-call `chosenDie` replaced
by its successor in the Die Tier Table, first choice marked, result kept
sorted descending, pre-call `chosenDie` returned. -/
def UpgradeSpec (p : Player) : Prop :=
  (applyChoice .upgrade p).2 = p.chosenDie ∧
  (applyChoice .upgrade p).1.madeFirstChoice = true ∧
  (applyChoice .upgrade p).1.eliminated = p.eliminated ∧
  (applyChoice .upgrade p).1.dice.length = p.dice.length ∧
  (applyChoice .upgrade p).1.dice.Perm
    (nextTier p.chosenDie :: p.dice.erase p.chosenDie) ∧
  List.Sorted (fun a b => a ≥ b) (applyChoice .upgrade p).1.dice

/-- What the spec asserts of `loseRandomDie` on a protected player holding at
most one lowest-tier die: the D4 is never the removed die, a held D4 is still
held afterwards, and a lone D4 means no loss at all. -/
def LoseProtectedSpec (r : ℚ) (p : Player) : Prop :=
  (loseRandomDie r p).1 ≠ some 4 ∧
  (4 ∈ p.dice → 4 ∈ (loseRandomDie r p).2.dice) ∧
  (p.dice = [4] → loseRandomDie r p = (none, p))

/-- What the spec asserts of the win evaluator: the game ends exactly when
one of the three conditions holds, and the conditions fire in the source's
order (terminal-count first, then single survivor, then human elimination). -/
def WinSpec (target : ℕ) (players : List Player) : Prop :=
  (checkWinCondition target players ≠ .continued ↔
    ((∃ p ∈ players, target ≤ d100Count p) ∨
      (players.filter (fun p => !p.eliminated)).length = 1 ∨
      (players.getD 0 dummyPlayer).eliminated = true)) ∧
  ((∃ p ∈ players, target ≤ d100Count p) →
    ∃ p ∈ players, target ≤ d100Count p ∧
      checkWinCondition target players = .winner p) ∧
  (¬(∃ p ∈ players, target ≤ d100Count p) →
    (players.filter (fun p => !p.eliminated)).length = 1 →
    checkWinCondition target players =
      .winner ((players.filter (fun p => !p.eliminated)).getD 0 dummyPlayer)) ∧
  (¬(∃ p ∈ players, target ≤ d100Count p) →
    (players.filter (fun p => !p.eliminated)).length ≠ 1 →
    (players.getD 0 dummyPlayer).eliminated = true →
    checkWinCondition target players = .humanLost) ∧
  (¬(∃ p ∈ players, target ≤ d100Count p) →
    (players.filter (fun p => !p.eliminated)).length ≠ 1 →
    (players.getD 0 dummyPlayer).eliminated = false →
    checkWinCondition target players = .continued)

/-- What the spec asserts of `resolveRound` over a non-empty active set with
rolled (hence non-negative) scores: the winner is drawn from the max-score
tie set and scores the maximum; every tied index is selectable by some legal
random draw; every other active player either forfeits exactly one of their
own dice, which is appended to the shared pool, or forfeits nothing and
keeps their dice unchanged — never both. -/
def ResolveSpec (rt : ℚ) (rl : ℕ → ℚ) (active : List Player) (pool : List ℕ) : Prop :=
  (resolveRound rt rl active pool).winnerIdx < active.length ∧
  (resolveRound rt rl active pool).winnerIdx ∈ tiedIdx active ∧
  (active.getD (resolveRound rt rl active pool).winnerIdx dummyPlayer).roundScore =
    maxScoreOf active ∧
  (∀ p ∈ active, p.roundScore ≤ maxScoreOf active) ∧
  (resolveRound rt rl active pool).players.length = active.length ∧
  (resolveRound rt rl active pool).losses.length = active.length ∧
  (resolveRound rt rl active pool).players.getD
      (resolveRound rt rl active pool).winnerIdx dummyPlayer =
    active.getD (resolveRound rt rl active pool).winnerIdx dummyPlayer ∧
  (resolveRound rt rl active pool).losses.getD
      (resolveRound rt rl active pool).winnerIdx none = none ∧
  (∀ i, i < active.length → i ≠ (resolveRound rt rl active pool).winnerIdx →
    (∃ v, (resolveRound rt rl active pool).losses.getD i none = some v ∧
      (active.getD i dummyPlayer).dice.Perm
        (v :: ((resolveRound rt rl active pool).players.getD i dummyPlayer).dice)) ∨
    ((resolveRound rt rl active pool).losses.getD i none = none ∧
      ((resolveRound rt rl active pool).players.getD i dummyPlayer).dice =
        (active.getD i dummyPlayer).dice)) ∧
  (resolveRound rt rl active pool).pool =
    pool ++ (resolveRound rt rl active pool).losses.filterMap id ∧
  (∀ i v, i < active.length →
    (resolveRound rt rl active pool).losses.getD i none = some v →
    v ∈ (resolveRound rt rl active pool).pool) ∧
  (∀ j, j < (tiedIdx active).length →
    ∃ q : ℚ, 0 ≤ q ∧ q < 1 ∧ winnerIdxOf q active = (tiedIdx active).getD j 0)

/-- A player holding only a terminal-tier die, having already made choices:
the state in which the spec says an upgrade request must be rejected. -/
def pTermEx : Player :=
  { name := "You", isHuman := true, dice := [100], madeFirstChoice := true,
    eliminated := false, chosenDie := 100, roundScore := 0, roundRolls := [] }

/-- A player about to upgrade a non-terminal D6. -/
def pUpEx : Player :=
  { name := "You", isHuman := true, dice := [6, 4], madeFirstChoice := true,
    eliminated := false, chosenDie := 6, roundScore := 0, roundRolls := [] }

/-- An already-eliminated player with no dice left. -/
def pEmptyEx : Player :=
  { name := "Bram", isHuman := false, dice := [], madeFirstChoice := true,
    eliminated := true, chosenDie := 4, roundScore := 0, roundRolls := [] }

/-- A rolled player with the higher score of the pair below. -/
def pHighEx : Player :=
  { name := "You", isHuman := true, dice := [6], madeFirstChoice := true,
    eliminated := false, chosenDie := 6, roundScore := 5, roundRolls := [2, 3] }

/-- A rolled player with the lower score of the pair. -/
def pLowEx : Player :=
  { name := "Aria", isHuman := false, dice := [4, 4], madeFirstChoice := true,
    eliminated := false, chosenDie := 4, roundScore := 3, roundRolls := [1, 2] }

/-! ### General list lemmas -/

theorem getD_mem {α : Type} {l : List α} {k : ℕ} (d : α) (h : k < l.length) :
    l.getD k d ∈ l := by
  rw [List.getD_eq_getElem l d h]
  exact List.getElem_mem h

theorem getD_lt_of_forall (l : List ℕ) (j : ℕ) (bound : ℕ)
    (hb : ∀ x ∈ l, x < bound) (h0 : 0 < bound) : l.getD j 0 < bound := by
  by_cases hj : j < l.length
  · exact hb _ (getD_mem 0 hj)
  · rw [List.getD_eq_default _ _ (le_of_not_lt hj)]
    exact h0

theorem map_range_getD {α : Type} (n : ℕ) (g : ℕ → α) (d : α) (i : ℕ)
    (h : i < n) : ((List.range n).map g).getD i d = g i := by
  rw [List.getD_eq_getElem _ d (by simpa using h)]
  simp

theorem pickIdx_lt {r : ℚ} (h0 : 0 ≤ r) (h1 : r < 1) {n : ℕ} (hn : 0 < n) :
    pickIdx r n < n := by
  have h2 : r * (n : ℚ) < (n : ℚ) := by
    calc r * (n : ℚ) < 1 * (n : ℚ) :=
          mul_lt_mul_of_pos_right h1 (by exact_mod_cast hn)
      _ = (n : ℚ) := one_mul _
  have h3 : ⌊r * (n : ℚ)⌋ < (n : ℤ) := by
    rw [Int.floor_lt]
    exact_mod_cast h2
  unfold pickIdx
  omega

theorem perm_getD_cons_eraseIdx :
    ∀ (l : List ℕ) (k : ℕ), k < l.length → l.Perm (l.getD k 0 :: l.eraseIdx k)
  | [], k, h => by simp at h
  | b :: t, 0, _ => by simp
  | b :: t, k + 1, h => by
      have ih := perm_getD_cons_eraseIdx t k (by simpa using h)
      have h1 : (b :: t).Perm (b :: (t.getD k 0 :: t.eraseIdx k)) := ih.cons b
      have h2 : (b :: (t.getD k 0 :: t.eraseIdx k)).Perm
          (t.getD k 0 :: b :: t.eraseIdx k) := List.Perm.swap _ _ _
      simpa using h1.trans h2

theorem two_le_count :
    ∀ (l : List ℕ) (a : ℕ) (j k : ℕ), firstIdx a l = some j →
      k < l.length → l.getD k 0 = a → k ≠ j → 2 ≤ l.count a
  | [], a, j, k, hj, hk, _, _ => by simp at hk
  | b :: t, a, j, k, hj, hk, hka, hne => by
      by_cases hb : b = a
      · have hj0 : j = 0 := by
          simp [firstIdx, hb] at hj
          omega
        subst hj0
        obtain ⟨k', rfl⟩ : ∃ k', k = k' + 1 := ⟨k - 1, by omega⟩
        have hk' : k' < t.length := by simpa using hk
        have hmem : a ∈ t := by
          have := getD_mem (l := t) 0 hk'
          rwa [show t.getD k' 0 = a from by simpa using hka] at this
        have h1 : 1 ≤ t.count a := List.count_pos_iff.mpr hmem
        subst hb
        rw [List.count_cons_self]
        omega
      · obtain ⟨j', hj', rfl⟩ : ∃ j', firstIdx a t = some j' ∧ j = j' + 1 := by
          simp [firstIdx, hb, Option.map_eq_some'] at hj
          obtain ⟨j', h1, h2⟩ := hj
          exact ⟨j', h1, h2.symm⟩
        obtain ⟨k', rfl⟩ : ∃ k', k = k' + 1 := by
          rcases k with _ | k'
          · exfalso
            apply hb
            simpa using hka
          · exact ⟨k', rfl⟩
        have := two_le_count t a j' k' hj' (by simpa using hk)
          (by simpa using hka) (by omega)
        have hcount : (b :: t).count a = t.count a := by
          simp [List.count_cons, hb]
        omega

/-! ### firstIdx lemmas (JS indexOf / findIndex) -/

theorem firstIdx_lt_length :
    ∀ {l : List ℕ} {a j : ℕ}, firstIdx a l = some j → j < l.length := by
  intro l
  induction l with
  | nil => intro a j h; simp [firstIdx] at h
  | cons b t ih =>
      intro a j h
      by_cases hb : b = a
      · simp [firstIdx, hb] at h
        simp [← h]
      · simp only [firstIdx, hb, if_false, Option.map_eq_some'] at h
        obtain ⟨j', hj', rfl⟩ := h
        have := ih hj'
        simp
        omega

theorem firstIdx_getD :
    ∀ {l : List ℕ} {a j : ℕ}, firstIdx a l = some j → l.getD j 0 = a := by
  intro l
  induction l with
  | nil => intro a j h; simp [firstIdx] at h
  | cons b t ih =>
      intro a j h
      by_cases hb : b = a
      · simp [firstIdx, hb] at h
        simp [← h, hb]
      · simp only [firstIdx, hb, if_false, Option.map_eq_some'] at h
        obtain ⟨j', hj', rfl⟩ := h
        simpa using ih hj'

theorem firstIdx_eq_none_iff {a : ℕ} :
    ∀ {l : List ℕ}, firstIdx a l = none ↔ a ∉ l := by
  intro l
  induction l with
  | nil => simp [firstIdx]
  | cons b t ih =>
      by_cases hb : b = a
      · simp [firstIdx, hb]
      · simp [firstIdx, hb, ih, Ne.symm hb]

theorem exists_firstIdx_of_mem {a : ℕ} {l : List ℕ} (h : a ∈ l) :
    ∃ j, firstIdx a l = some j := by
  rcases hf : firstIdx a l with _ | j
  · exact absurd h (firstIdx_eq_none_iff.mp hf)
  · exact ⟨j, rfl⟩

theorem set_firstIdx_perm :
    ∀ {l : List ℕ} {a j : ℕ} (b : ℕ), firstIdx a l = some j →
      (l.set j b).Perm (b :: l.erase a) := by
  intro l
  induction l with
  | nil => intro a j b h; simp [firstIdx] at h
  | cons c t ih =>
      intro a j b h
      by_cases hc : c = a
      · have hj : j = 0 := by
          simp [firstIdx, hc] at h
          omega
        subst hj
        subst hc
        simp [List.erase_cons_head]
      · simp only [firstIdx, hc, if_false, Option.map_eq_some'] at h
        obtain ⟨j', hj', rfl⟩ := h
        have herase : (c :: t).erase a = c :: t.erase a :=
          List.erase_cons_tail (by simpa using hc)
        rw [herase, List.set_cons_succ]
        have h1 : (c :: t.set j' b).Perm (c :: (b :: t.erase a)) := (ih b hj').cons c
        have h2 : (c :: (b :: t.erase a)).Perm (b :: c :: t.erase a) :=
          List.Perm.swap _ _ _
        exact h1.trans h2

theorem set_firstIdx_self :
    ∀ {l : List ℕ} {a j : ℕ}, firstIdx a l = some j → l.set j a = l := by
  intro l
  induction l with
  | nil => intro a j h; simp [firstIdx] at h
  | cons c t ih =>
      intro a j h
      by_cases hc : c = a
      · have hj : j = 0 := by
          simp [firstIdx, hc] at h
          omega
        subst hj
        simp [hc]
      · simp only [firstIdx, hc, if_false, Option.map_eq_some'] at h
        obtain ⟨j', hj', rfl⟩ := h
        rw [List.set_cons_succ, ih hj']

/-! ### sortDesc lemmas -/

theorem sortDesc_perm (l : List ℕ) : (sortDesc l).Perm l :=
  List.perm_insertionSort _ l

theorem sortDesc_length (l : List ℕ) : (sortDesc l).length = l.length :=
  (sortDesc_perm l).length_eq

theorem sortDesc_sorted (l : List ℕ) :
    List.Sorted (fun a b => a ≥ b) (sortDesc l) :=
  List.sorted_insertionSort _ l

/-! ### applyChoice field lemmas -/

theorem applyChoice_snd (c : Choice) (p : Player) :
    (applyChoice c p).2 = p.chosenDie := by
  cases c <;> simp [applyChoice]

theorem applyChoice_madeFirstChoice (c : Choice) (p : Player) :
    (applyChoice c p).1.madeFirstChoice = true := by
  cases c <;> simp [applyChoice]

theorem applyChoice_eliminated (c : Choice) (p : Player) :
    (applyChoice c p).1.eliminated = p.eliminated := by
  cases c <;> simp [applyChoice]

theorem applyChoice_upgrade_dice_length (p : Player) :
    (applyChoice .upgrade p).1.dice.length = p.dice.length := by
  unfold applyChoice
  rcases hf : firstIdx p.chosenDie p.dice with _ | j
  · simp [hf, sortDesc_length]
  · simp [hf, sortDesc_length]

theorem applyChoice_dice_ne_nil (c : Choice) (p : Player) (h : p.dice ≠ []) :
    (applyChoice c p).1.dice ≠ [] := by
  cases c with
  | duplicate =>
      have hlen : (applyChoice .duplicate p).1.dice.length = p.dice.length + 1 := by
        simp [applyChoice, sortDesc_length]
      intro hnil
      rw [hnil] at hlen
      simp at hlen
  | upgrade =>
      have hlen := applyChoice_upgrade_dice_length p
      intro hnil
      rw [hnil] at hlen
      have : p.dice.length ≠ 0 := fun h0 => h (List.length_eq_zero.mp h0)
      simp at hlen
      omega

/-! ### loseRandomDie lemmas -/

theorem loseRandomDie_empty (r : ℚ) (p : Player) (h : p.dice = []) :
    loseRandomDie r p = (none, p) := by
  simp [loseRandomDie, h]

theorem loseRandomDie_singleton_protected (r : ℚ) (p : Player)
    (hm : p.madeFirstChoice = false) (hd : p.dice = [4]) :
    loseRandomDie r p = (none, p) := by
  simp [loseRandomDie, isProtected, hm, hd, firstIdx]

theorem loseRandomDie_spec (r : ℚ) (p : Player) :
    loseRandomDie r p = (none, p) ∨
    ∃ k, k < p.dice.length ∧
      loseRandomDie r p =
        (some (p.dice.getD k 0), { p with dice := p.dice.eraseIdx k }) := by
  by_cases h0 : p.dice.length = 0
  · left
    simp [loseRandomDie, h0]
  · have hpos : 0 < p.dice.length := Nat.pos_of_ne_zero h0
    by_cases hpr : isProtected p
    · rcases hf : firstIdx 4 p.dice with _ | d4Idx
      · right
        refine ⟨(List.range p.dice.length).getD
          (pickIdx r (List.range p.dice.length).length) 0, ?_, ?_⟩
        · exact getD_lt_of_forall _ _ _ (fun x hx => List.mem_range.mp hx) hpos
        · simp [loseRandomDie, h0, hpr, hf, List.length_range]
      · by_cases h1 : p.dice.length = 1
        · left
          simp [loseRandomDie, h0, hpr, hf, h1]
        · by_cases h2 : ((List.range p.dice.length).filter
            (fun i => i != d4Idx)).length = 0
          · left
            simp [loseRandomDie, h0, hpr, hf, h1, h2]
          · right
            refine ⟨((List.range p.dice.length).filter (fun i => i != d4Idx)).getD
              (pickIdx r ((List.range p.dice.length).filter
                (fun i => i != d4Idx)).length) 0, ?_, ?_⟩
            · refine getD_lt_of_forall _ _ _ (fun x hx => ?_) hpos
              exact List.mem_range.mp (List.mem_filter.mp hx).1
            · simp [loseRandomDie, h0, hpr, hf, h1, h2]
    · right
      refine ⟨(List.range p.dice.length).getD
        (pickIdx r (List.range p.dice.length).length) 0, ?_, ?_⟩
      · exact getD_lt_of_forall _ _ _ (fun x hx => List.mem_range.mp hx) hpos
      · simp [loseRandomDie, h0, hpr, List.length_range]

theorem loseRandomDie_madeFirstChoice (r : ℚ) (p : Player) :
    (loseRandomDie r p).2.madeFirstChoice = p.madeFirstChoice := by
  rcases loseRandomDie_spec r p with h | ⟨k, _, h⟩ <;> rw [h]

theorem loseRandomDie_eliminated (r : ℚ) (p : Player) :
    (loseRandomDie r p).2.eliminated = p.eliminated := by
  rcases loseRandomDie_spec r p with h | ⟨k, _, h⟩ <;> rw [h]

/-! ### C7 — applyChoice('duplicate') -/

/-- C7: for every player, `applyChoice('duplicate')` grows `dice` by exactly
one entry equal to the pre-call `chosenDie`, leaves every other tier in the
multiset unchanged, marks `madeFirstChoice`, keeps the result sorted
descending, and returns the pre-call `chosenDie`. -/
theorem applyChoice_duplicate_correct (p : Player) : DuplicateSpec p := by
  refine ⟨applyChoice_snd _ p, applyChoice_madeFirstChoice _ p,
    applyChoice_eliminated _ p, ?_, ?_, ?_⟩
  · simp [applyChoice, sortDesc_length]
  · have h1 : (sortDesc (p.dice ++ [p.chosenDie])).Perm (p.dice ++ [p.chosenDie]) :=
      sortDesc_perm _
    have h2 : (p.dice ++ [p.chosenDie]).Perm (p.chosenDie :: p.dice) :=
      List.perm_append_singleton _ _
    simpa [applyChoice] using h1.trans h2
  · have := sortDesc_sorted (p.dice ++ [p.chosenDie])
    simpa [applyChoice] using this

/-! ### C10 — loseRandomDie on an empty hand -/

/-- C10: calling `loseRandomDie()` with `dice` already empty returns the
no-loss sentinel `null` and leaves the player unchanged (the function's
first guard, src/game.js line 84); the embedding is a total function, so no
exception or underflow is possible. -/
theorem loseRandomDie_empty_dice (r : ℚ) (p : Player) (h : p.dice = []) :
    loseRandomDie r p = (none, p) :=
  loseRandomDie_empty r p h

/-- C10 witness: the guard at a concrete eliminated player with no dice. -/
theorem loseRandomDie_empty_dice_witness :
    loseRandomDie (1 / 2) pEmptyEx = (none, pEmptyEx) :=
  loseRandomDie_empty_dice (1 / 2) pEmptyEx (by simp [pEmptyEx])

/-! ### C5 — upgrade at terminal tier is a silent no-op, not an error -/

/-- C5 counterexample: a human round winner whose `chosenDie` is the
terminal D100 applies `upgrade`, and the call completes normally — it
returns the updated player list (the engine state is written) and the
pre-call die, exactly as a successful call does.  Neither `applyHumanChoice`
(src/game.js lines 432-446) nor `Player.applyChoice` (lines 63-80) has any
error or rejection path: the tier replacement clamps to the terminal index
(`Math.min(idx + 1, DICE_SIDES.length - 1)`) and silently rewrites D100 to
D100, refuting the claim that the call fails with an error. -/
theorem applyChoice_upgrade_terminal_succeeds :
    applyHumanChoice .upgrade [pTermEx] = [pTermEx] ∧
    applyChoice .upgrade pTermEx = (pTermEx, 100) := by
  constructor
  · show (applyChoice .upgrade pTermEx).1 :: [] = [pTermEx]
    decide
  · decide

/-- C5 (amended): applying `upgrade` while `chosenDie` is already the
terminal tier succeeds as a silent no-op on the die multiset — the dice are
only re-sorted, `madeFirstChoice` is set, and the pre-call die is returned;
no error is reported. -/
theorem applyChoice_upgrade_terminal_noop (p : Player) (h : p.chosenDie = 100) :
    (applyChoice .upgrade p).1.dice.Perm p.dice ∧
    (applyChoice .upgrade p).1.madeFirstChoice = true ∧
    (applyChoice .upgrade p).1.eliminated = p.eliminated ∧
    (applyChoice .upgrade p).2 = p.chosenDie := by
  refine ⟨?_, applyChoice_madeFirstChoice _ p, applyChoice_eliminated _ p,
    applyChoice_snd _ p⟩
  have hjs : jsGetD DICE_SIDES (min (jsIndexOf DICE_SIDES p.chosenDie + 1)
      ((DICE_SIDES.length : ℤ) - 1)) = 100 := by
    rw [h]
    decide
  rcases hf : firstIdx p.chosenDie p.dice with _ | j
  · have : (applyChoice .upgrade p).1.dice = sortDesc p.dice := by
      simp [applyChoice, hf]
    rw [this]
    exact sortDesc_perm _
  · have hset : (applyChoice .upgrade p).1.dice =
        sortDesc (p.dice.set j (jsGetD DICE_SIDES
          (min (jsIndexOf DICE_SIDES p.chosenDie + 1)
            ((DICE_SIDES.length : ℤ) - 1)))) := by
      simp [applyChoice, hf]
    rw [hset, hjs, set_firstIdx_self (by rwa [h] at hf)]
    exact sortDesc_perm _

/-- C5 witness: the no-op upgrade at the concrete terminal-tier player. -/
theorem applyChoice_upgrade_terminal_noop_witness :
    (applyChoice .upgrade pTermEx).1.dice.Perm pTermEx.dice ∧
    (applyChoice .upgrade pTermEx).1.madeFirstChoice = true ∧
    (applyChoice .upgrade pTermEx).1.eliminated = pTermEx.eliminated ∧
    (applyChoice .upgrade pTermEx).2 = pTermEx.chosenDie :=
  applyChoice_upgrade_terminal_noop pTermEx (by decide)

/-! ### C1 — rollForRound range (code bug at a zero draw) -/

/-- C1: `Math.ceil(Math.random() * sides)` (src/game.js line 57) produces 0
— not a value in [1, S] — when `Math.random()` returns 0, a value ECMA-262
allows (its range is [0, 1)).  With the all-zero draw stream, a fresh player
rolling their D4 records `roundRolls = [0, 0, 0, 0]` and `roundScore = 0`,
so the claimed range [1, S] fails; the zero stream satisfies the
`Math.random()` contract, stated as the first conjunct. -/
theorem rollForRound_zero_draw_breaks_range :
    ((0 : ℚ) ≤ 0 ∧ (0 : ℚ) < 1) ∧
    (rollForRound (fun _ => 0) (mkPlayer "You" true)).roundRolls = [0, 0, 0, 0] ∧
    (rollForRound (fun _ => 0) (mkPlayer "You" true)).roundScore = 0 ∧
    ¬(∀ x ∈ (rollForRound (fun _ => 0) (mkPlayer "You" true)).roundRolls,
        1 ≤ x ∧ x ≤ 4) := by
  have hr : (rollForRound (fun _ => 0) (mkPlayer "You" true)).roundRolls = [0, 0, 0, 0] ∧
      (rollForRound (fun _ => 0) (mkPlayer "You" true)).roundScore = 0 := by
    constructor <;> simp [rollForRound, mkPlayer, List.range_succ]
  refine ⟨⟨le_refl 0, by norm_num⟩, hr.1, hr.2, ?_⟩
  rw [hr.1]
  decide

/-! ### C6 — applyChoice('upgrade') below the terminal tier -/

theorem applyChoice_upgrade_dice_eq (p : Player) (j : ℕ)
    (hj : firstIdx p.chosenDie p.dice = some j) :
    (applyChoice .upgrade p).1.dice =
      sortDesc (p.dice.set j (jsGetD DICE_SIDES
        (min (jsIndexOf DICE_SIDES p.chosenDie + 1)
          ((DICE_SIDES.length : ℤ) - 1)))) := by
  simp [applyChoice, hj]

/-- C6: for every player whose `chosenDie` is held and is a non-terminal
entry of the Die Tier Table, `applyChoice('upgrade')` keeps `dice.length`,
replaces exactly one entry equal to the pre-call `chosenDie` by its
successor in the table, marks `madeFirstChoice`, re-sorts descending and
returns the pre-call `chosenDie`; at the terminal tier the die multiset is
untouched (no-op on tier). -/
theorem applyChoice_upgrade_correct (p : Player) (h1 : p.chosenDie ∈ p.dice)
    (h2 : p.chosenDie ∈ DICE_SIDES) :
    (p.chosenDie ≠ 100 → UpgradeSpec p) ∧
    (p.chosenDie = 100 → (applyChoice .upgrade p).1.dice.Perm p.dice) := by
  obtain ⟨j, hj⟩ := exists_firstIdx_of_mem h1
  constructor
  · intro h3
    have hnext : jsGetD DICE_SIDES (min (jsIndexOf DICE_SIDES p.chosenDie + 1)
        ((DICE_SIDES.length : ℤ) - 1)) = nextTier p.chosenDie := by
      have h2' : p.chosenDie = 4 ∨ p.chosenDie = 6 ∨ p.chosenDie = 8 ∨
          p.chosenDie = 10 ∨ p.chosenDie = 12 ∨ p.chosenDie = 20 ∨
          p.chosenDie = 100 := by
        simpa [DICE_SIDES] using h2
      rcases h2' with h | h | h | h | h | h | h
      · rw [h]; decide
      · rw [h]; decide
      · rw [h]; decide
      · rw [h]; decide
      · rw [h]; decide
      · rw [h]; decide
      · exact absurd h h3
    refine ⟨applyChoice_snd _ p, applyChoice_madeFirstChoice _ p,
      applyChoice_eliminated _ p, applyChoice_upgrade_dice_length p, ?_, ?_⟩
    · rw [applyChoice_upgrade_dice_eq p j hj, hnext]
      exact (sortDesc_perm _).trans (set_firstIdx_perm _ hj)
    · rw [applyChoice_upgrade_dice_eq p j hj]
      exact sortDesc_sorted _
  · intro h3
    have hjs : jsGetD DICE_SIDES (min (jsIndexOf DICE_SIDES p.chosenDie + 1)
        ((DICE_SIDES.length : ℤ) - 1)) = 100 := by
      rw [h3]
      decide
    rw [applyChoice_upgrade_dice_eq p j hj, hjs,
      set_firstIdx_self (by rwa [h3] at hj)]
    exact sortDesc_perm _

/-- C6 witness: upgrading the held non-terminal D6 of a concrete player. -/
theorem applyChoice_upgrade_correct_witness : UpgradeSpec pUpEx :=
  (applyChoice_upgrade_correct pUpEx (by decide) (by decide)).1 (by decide)

/-! ### C2 — protection of the lone starting D4 -/

/-- C2: for a protected player (`madeFirstChoice = false`) holding at most
one lowest-tier die, `loseRandomDie()` never removes the D4 — the D4's
index is excluded from the eligible set before the pick, so the removed die
is never a 4 and a held 4 is still held afterwards — and when the D4 is the
only die the no-loss sentinel is returned with the player unchanged.  The
draw `r` satisfies the `Math.random()` contract `0 ≤ r < 1`. -/
theorem loseRandomDie_protected_spec (r : ℚ) (p : Player) (h0 : 0 ≤ r)
    (h1 : r < 1) (hm : p.madeFirstChoice = false) (hc : p.dice.count 4 ≤ 1) :
    LoseProtectedSpec r p := by
  have hpr : isProtected p = true := by simp [isProtected, hm]
  by_cases hlen : p.dice.length = 0
  · have hnil : p.dice = [] := List.length_eq_zero.mp hlen
    have hres := loseRandomDie_empty r p hnil
    refine ⟨by simp [hres], fun hmem => by rw [hres]; exact hmem, fun _ => hres⟩
  · rcases hf : firstIdx 4 p.dice with _ | d4Idx
    · have h4notin : 4 ∉ p.dice := firstIdx_eq_none_iff.mp hf
      rcases loseRandomDie_spec r p with hsp | ⟨k, hk, hsp⟩
      · exact ⟨by simp [hsp], fun hmem => by rw [hsp]; exact hmem, fun _ => hsp⟩
      · refine ⟨?_, fun hmem => absurd hmem h4notin, fun h4 => ?_⟩
        · rw [hsp]
          intro hcon
          apply h4notin
          have : p.dice.getD k 0 = 4 := by simpa using hcon
          rw [← this]
          exact getD_mem 0 hk
        · rw [h4] at hf
          simp [firstIdx] at hf
    · have hd4lt := firstIdx_lt_length hf
      have hd4val := firstIdx_getD hf
      by_cases hone : p.dice.length = 1
      · have hres : loseRandomDie r p = (none, p) := by
          simp [loseRandomDie, hlen, hpr, hf, hone]
        exact ⟨by simp [hres], fun hmem => by rw [hres]; exact hmem, fun _ => hres⟩
      · by_cases h2 : ((List.range p.dice.length).filter
            (fun i => i != d4Idx)).length = 0
        · have hres : loseRandomDie r p = (none, p) := by
            simp [loseRandomDie, hlen, hpr, hf, hone, h2]
          exact ⟨by simp [hres], fun hmem => by rw [hres]; exact hmem, fun _ => hres⟩
        · have hpl : pickIdx r ((List.range p.dice.length).filter
              (fun i => i != d4Idx)).length <
              ((List.range p.dice.length).filter (fun i => i != d4Idx)).length :=
            pickIdx_lt h0 h1 (Nat.pos_of_ne_zero h2)
          have hpickmem := getD_mem (l := (List.range p.dice.length).filter
            (fun i => i != d4Idx)) 0 hpl
          have hpick := List.mem_filter.mp hpickmem
          have hpicklt : ((List.range p.dice.length).filter
              (fun i => i != d4Idx)).getD (pickIdx r ((List.range p.dice.length).filter
                (fun i => i != d4Idx)).length) 0 < p.dice.length :=
            List.mem_range.mp hpick.1
          have hpickne : ((List.range p.dice.length).filter
              (fun i => i != d4Idx)).getD (pickIdx r ((List.range p.dice.length).filter
                (fun i => i != d4Idx)).length) 0 ≠ d4Idx := by
            simpa using hpick.2
          have hres : loseRandomDie r p =
              (some (p.dice.getD (((List.range p.dice.length).filter
                (fun i => i != d4Idx)).getD (pickIdx r ((List.range p.dice.length).filter
                  (fun i => i != d4Idx)).length) 0) 0),
               { p with dice := p.dice.eraseIdx (((List.range p.dice.length).filter
                (fun i => i != d4Idx)).getD (pickIdx r ((List.range p.dice.length).filter
                  (fun i => i != d4Idx)).length) 0) }) := by
            simp [loseRandomDie, hlen, hpr, hf, hone, h2]
          have hlostne : p.dice.getD (((List.range p.dice.length).filter
              (fun i => i != d4Idx)).getD (pickIdx r ((List.range p.dice.length).filter
                (fun i => i != d4Idx)).length) 0) 0 ≠ 4 := by
            intro heq
            exact absurd (two_le_count p.dice 4 d4Idx _ hf hpicklt heq hpickne)
              (by omega)
          refine ⟨?_, ?_, ?_⟩
          · rw [hres]
            simpa using hlostne
          · intro hmem
            rw [hres]
            show 4 ∈ p.dice.eraseIdx _
            have hperm := perm_getD_cons_eraseIdx p.dice _ hpicklt
            have hcnt := hperm.count_eq 4
            rw [List.count_cons_of_ne (Ne.symm hlostne)] at hcnt
            have hpos : 0 < p.dice.count 4 := List.count_pos_iff.mpr hmem
            exact List.count_pos_iff.mp (hcnt ▸ hpos)
          · intro h4
            exfalso
            apply hone
            rw [h4]
            rfl

/-- C2 witness: a fresh protected player holding only the starting D4 loses
nothing at the concrete draw 1/2. -/
theorem loseRandomDie_protected_spec_witness :
    LoseProtectedSpec (1 / 2) (mkPlayer "You" true) :=
  loseRandomDie_protected_spec (1 / 2) (mkPlayer "You" true)
    (by norm_num) (by norm_num) (by decide) (by decide)

/-! ### C3 — the win evaluator -/

/-- C3: the win evaluator ends the game exactly when some player (the scan
does not skip eliminated players) holds at least `target` terminal-tier
dice, or exactly one non-eliminated player remains, or the human (index 0)
is eliminated (ending with no winner); otherwise it continues, and the three
conditions fire in exactly this order, first match only. -/
theorem checkWinCondition_spec (target : ℕ) (players : List Player) :
    WinSpec target players := by
  unfold WinSpec
  rcases hf : players.find? (fun p => decide (target ≤ d100Count p)) with _ | q
  · have hno : ¬ ∃ p ∈ players, target ≤ d100Count p := by
      rintro ⟨p, hp, hle⟩
      have := List.find?_eq_none.mp hf p hp
      simp at this
      exact absurd hle (by simpa using this)
    by_cases ha : (players.filter (fun p => !p.eliminated)).length = 1
    · have hcw : checkWinCondition target players =
          .winner ((players.filter (fun p => !p.eliminated)).getD 0 dummyPlayer) := by
        simp [checkWinCondition, hf, ha]
      refine ⟨?_, fun hc => absurd hc hno, fun _ _ => hcw,
        fun _ hne _ => absurd ha hne, fun _ hne _ => absurd ha hne⟩
      rw [hcw]
      exact iff_of_true (by simp) (Or.inr (Or.inl ha))
    · by_cases hh : (players.getD 0 dummyPlayer).eliminated = true
      · have hh' : (players[0]?.getD dummyPlayer).eliminated = true := by
          rw [← List.getD_eq_getElem?_getD]
          exact hh
        have hcw : checkWinCondition target players = .humanLost := by
          simp [checkWinCondition, hf, ha, hh']
        refine ⟨?_, ?_, ?_, ?_, ?_⟩
        · rw [hcw]
          exact iff_of_true (by simp) (Or.inr (Or.inr hh))
        · exact fun hc => absurd hc hno
        · exact fun _ hc => absurd hc ha
        · exact fun _ _ _ => hcw
        · intro _ _ hc
          rw [hh] at hc
          cases hc
      · have hfalse : (players.getD 0 dummyPlayer).eliminated = false := by
          simpa using hh
        have hfalse' : (players[0]?.getD dummyPlayer).eliminated = false := by
          rw [← List.getD_eq_getElem?_getD]
          exact hfalse
        have hcw : checkWinCondition target players = .continued := by
          simp [checkWinCondition, hf, ha, hfalse']
        refine ⟨?_, ?_, ?_, ?_, ?_⟩
        · rw [hcw]
          refine iff_of_false (by simp) ?_
          rintro (hc | hc | hc)
          · exact hno hc
          · exact ha hc
          · rw [hfalse] at hc; cases hc
        · exact fun hc => absurd hc hno
        · exact fun _ hc => absurd hc ha
        · intro _ _ hc
          rw [hfalse] at hc
          cases hc
        · exact fun _ _ _ => hcw
  · have hq1 : target ≤ d100Count q := by simpa using List.find?_some hf
    have hq2 : q ∈ players := List.mem_of_find?_eq_some hf
    have hcond : ∃ p ∈ players, target ≤ d100Count p := ⟨q, hq2, hq1⟩
    have hcw : checkWinCondition target players = .winner q := by
      simp [checkWinCondition, hf]
    refine ⟨?_, fun _ => ⟨q, hq2, hq1, hcw⟩, fun hc => absurd hcond hc,
      fun hc => absurd hcond hc, fun hc => absurd hcond hc⟩
    rw [hcw]
    exact iff_of_true (by simp) (Or.inl hcond)

/-! ### C4 — round resolution -/

theorem foldl_maxStep_spec :
    ∀ (l : List Player) (init : ℤ),
      init ≤ l.foldl maxStep init ∧
      (∀ p ∈ l, p.roundScore ≤ l.foldl maxStep init) ∧
      (l.foldl maxStep init = init ∨ ∃ p ∈ l, l.foldl maxStep init = p.roundScore)
  | [], init => by simp
  | q :: t, init => by
      obtain ⟨ih1, ih2, ih3⟩ := foldl_maxStep_spec t (maxStep init q)
      rw [List.foldl_cons]
      have hstep : init ≤ maxStep init q := by
        unfold maxStep; split <;> omega
      have hq : q.roundScore ≤ maxStep init q := by
        unfold maxStep; split <;> omega
      refine ⟨le_trans hstep ih1, ?_, ?_⟩
      · intro p hp
        rcases List.mem_cons.mp hp with rfl | hp
        · exact le_trans hq ih1
        · exact ih2 p hp
      · rcases ih3 with h | ⟨p, hp, h⟩
        · by_cases hgt : q.roundScore > init
          · right
            exact ⟨q, List.mem_cons_self _ _, by rw [h]; unfold maxStep; simp [hgt]⟩
          · left
            rw [h]
            unfold maxStep
            simp [hgt]
        · right
          exact ⟨p, List.mem_cons_of_mem _ hp, h⟩

theorem maxScoreOf_le (active : List Player) :
    ∀ p ∈ active, p.roundScore ≤ maxScoreOf active :=
  (foldl_maxStep_spec active (-1)).2.1

theorem maxScoreOf_attained (active : List Player) (hne : active ≠ [])
    (hsc : ∀ p ∈ active, 0 ≤ p.roundScore) :
    ∃ p ∈ active, maxScoreOf active = p.roundScore := by
  rcases (foldl_maxStep_spec active (-1)).2.2 with h | h
  · exfalso
    obtain ⟨p0, hp0⟩ : ∃ p0, p0 ∈ active := by
      cases active with
      | nil => exact absurd rfl hne
      | cons a t => exact ⟨a, List.mem_cons_self a t⟩
    have h1 := maxScoreOf_le active p0 hp0
    have h2 := hsc p0 hp0
    unfold maxScoreOf at h1
    omega
  · exact h

theorem mem_tiedIdx_iff (active : List Player) (i : ℕ) :
    i ∈ tiedIdx active ↔ i < active.length ∧
      (active.getD i dummyPlayer).roundScore = maxScoreOf active := by
  simp [tiedIdx, List.mem_filter, List.mem_range]

theorem tiedIdx_ne_nil (active : List Player) (hne : active ≠ [])
    (hsc : ∀ p ∈ active, 0 ≤ p.roundScore) : tiedIdx active ≠ [] := by
  obtain ⟨p, hp, hmax⟩ := maxScoreOf_attained active hne hsc
  obtain ⟨i, hi, rfl⟩ := List.mem_iff_getElem.mp hp
  have hmem : i ∈ tiedIdx active := by
    refine (mem_tiedIdx_iff _ _).mpr ⟨hi, ?_⟩
    rw [List.getD_eq_getElem _ _ hi]
    exact hmax.symm
  intro hnil
  rw [hnil] at hmem
  cases hmem

theorem winnerIdx_mem_tiedIdx (rt : ℚ) (active : List Player) (h0 : 0 ≤ rt)
    (h1 : rt < 1) (htied : tiedIdx active ≠ []) :
    winnerIdxOf rt active ∈ tiedIdx active := by
  unfold winnerIdxOf
  exact getD_mem 0 (pickIdx_lt h0 h1 (List.length_pos.mpr htied))

/-- C4: over a non-empty active set with rolled (non-negative) scores the
winner is drawn from the max-score tie set and scores the maximum; each tied
index is selectable by some legal draw; every other active player either
forfeits exactly one of their own dice, appended to the shared pool, or
forfeits nothing with dice untouched — never both. -/
theorem resolveRound_spec (rt : ℚ) (rl : ℕ → ℚ) (active : List Player)
    (pool : List ℕ) (hne : active ≠ []) (h0 : 0 ≤ rt) (h1 : rt < 1)
    (hsc : ∀ p ∈ active, 0 ≤ p.roundScore) : ResolveSpec rt rl active pool := by
  have htied := tiedIdx_ne_nil active hne hsc
  have hwmem := winnerIdx_mem_tiedIdx rt active h0 h1 htied
  obtain ⟨hwlt, hwscore⟩ := (mem_tiedIdx_iff active _).mp hwmem
  have hwidx : (resolveRound rt rl active pool).winnerIdx = winnerIdxOf rt active := rfl
  have hplayers : ∀ i, i < active.length →
      (resolveRound rt rl active pool).players.getD i dummyPlayer =
        (if i = winnerIdxOf rt active then active.getD i dummyPlayer
         else (loseStep (rl i) (active.getD i dummyPlayer)).1) := by
    intro i hi
    exact map_range_getD active.length _ dummyPlayer i hi
  have hlosses : ∀ i, i < active.length →
      (resolveRound rt rl active pool).losses.getD i none =
        (if i = winnerIdxOf rt active then none
         else (loseStep (rl i) (active.getD i dummyPlayer)).2) := by
    intro i hi
    exact map_range_getD active.length _ none i hi
  refine ⟨hwidx ▸ hwlt, hwidx ▸ hwmem, ?_, maxScoreOf_le active, ?_, ?_, ?_, ?_,
    ?_, ?_, ?_, ?_⟩
  · rw [hwidx]
    exact hwscore
  · simp [resolveRound]
  · simp [resolveRound]
  · rw [hwidx, hplayers _ hwlt, if_pos rfl]
  · rw [hwidx, hlosses _ hwlt, if_pos rfl]
  · intro i hi hiw
    rw [hwidx] at hiw
    rw [hplayers i hi, hlosses i hi, if_neg hiw, if_neg hiw]
    generalize active.getD i dummyPlayer = p
    rcases loseRandomDie_spec (rl i) p with hsp | ⟨k, hk, hsp⟩
    · right
      constructor
      · simp [loseStep, hsp]
      · simp only [loseStep, hsp]
        split <;> rfl
    · left
      refine ⟨p.dice.getD k 0, ?_, ?_⟩
      · simp [loseStep, hsp]
      · have hdice : (loseStep (rl i) p).1.dice = p.dice.eraseIdx k := by
          simp only [loseStep, hsp]
          split <;> rfl
        rw [hdice]
        exact perm_getD_cons_eraseIdx _ k hk
  · show _ = _ ++ ((List.range active.length).map _).filterMap id
    rw [List.filterMap_map]
    simp [resolveRound]
  · intro i v hi hv
    rw [hlosses i hi] at hv
    show v ∈ _ ++ (List.range active.length).filterMap _
    refine List.mem_append_right _ ?_
    rw [List.mem_filterMap]
    exact ⟨i, List.mem_range.mpr hi, hv⟩
  · intro j hj
    have hlen0 : ((tiedIdx active).length : ℚ) ≠ 0 := by
      have := List.length_pos.mpr htied
      exact_mod_cast Nat.pos_iff_ne_zero.mp this
    refine ⟨(j : ℚ) / ((tiedIdx active).length : ℚ), ?_, ?_, ?_⟩
    · positivity
    · rw [div_lt_one (by positivity)]
      exact_mod_cast hj
    · unfold winnerIdxOf
      congr 1
      unfold pickIdx
      rw [div_mul_cancel₀ _ hlen0]
      simp

/-- C4 witness: two concrete rolled players, draws fixed at 0. -/
theorem resolveRound_spec_witness : ResolveSpec 0 (fun _ => 0) [pHighEx, pLowEx] [] :=
  resolveRound_spec 0 (fun _ => 0) [pHighEx, pLowEx] []
    (by decide) (by norm_num) (by norm_num) (by decide)

/-! ### C8 and C9 — reachable-state invariants -/

theorem rollForRound_dice (rand : ℕ → ℚ) (p : Player) :
    (rollForRound rand p).dice = p.dice := by
  simp [rollForRound]

theorem rollForRound_eliminated (rand : ℕ → ℚ) (p : Player) :
    (rollForRound rand p).eliminated = p.eliminated := by
  simp [rollForRound]

theorem rollForRound_madeFirstChoice (rand : ℕ → ℚ) (p : Player) :
    (rollForRound rand p).madeFirstChoice = p.madeFirstChoice := by
  simp [rollForRound]

theorem overIdx_length (f : ℕ → Player → Player) (ps : List Player) :
    (overIdx f ps).length = ps.length := by
  simp [overIdx]

theorem overIdx_getD (f : ℕ → Player → Player) (ps : List Player) (i : ℕ)
    (h : i < ps.length) :
    (overIdx f ps).getD i dummyPlayer = f i (ps.getD i dummyPlayer) :=
  map_range_getD ps.length _ dummyPlayer i h

theorem inv_selectStep (sel : ℕ → ℕ) (ps : List Player) (h : Inv ps) :
    Inv (selectStep sel ps) := by
  intro i hi
  have hi' : i < ps.length := by
    rw [show selectStep sel ps = overIdx _ ps from rfl, overIdx_length] at hi
    exact hi
  rw [show selectStep sel ps = overIdx
    (fun i p => if p.eliminated then p else { p with chosenDie := sel i }) ps from rfl,
    overIdx_getD _ _ i hi']
  obtain ⟨h1, h2⟩ := h i hi'
  split
  · exact ⟨h1, h2⟩
  · exact ⟨h1, h2⟩

theorem inv_rollStep (rand : ℕ → ℕ → ℚ) (ps : List Player) (h : Inv ps) :
    Inv (rollStep rand ps) := by
  intro i hi
  have hi' : i < ps.length := by
    rw [show rollStep rand ps = overIdx _ ps from rfl, overIdx_length] at hi
    exact hi
  rw [show rollStep rand ps = overIdx
    (fun i p => if p.eliminated then p else rollForRound (rand i) p) ps from rfl,
    overIdx_getD _ _ i hi']
  obtain ⟨h1, h2⟩ := h i hi'
  split
  · exact ⟨h1, h2⟩
  · constructor
    · rw [rollForRound_dice, rollForRound_eliminated]
      exact h1
    · rw [rollForRound_madeFirstChoice, rollForRound_dice]
      exact h2

theorem invP_loseStep (r : ℚ) (p : Player)
    (h1 : p.dice = [] ↔ p.eliminated = true)
    (h2 : p.madeFirstChoice = false → p.dice = [4])
    (helim : p.eliminated = false) : InvP (loseStep r p).1 := by
  have hdne : p.dice ≠ [] := fun hd => by
    rw [h1.mp hd] at helim
    cases helim
  by_cases hm : p.madeFirstChoice = false
  · have hd4 := h2 hm
    have hnone := loseRandomDie_singleton_protected r p hm hd4
    have hls : (loseStep r p).1 = p := by
      simp [loseStep, hnone, hd4]
    rw [hls]
    exact ⟨h1, h2⟩
  · have hm' : p.madeFirstChoice = true := by simpa using hm
    rcases loseRandomDie_spec r p with hsp | ⟨k, hk, hsp⟩
    · have hlen0 : p.dice.length ≠ 0 := fun hz => hdne (List.length_eq_zero.mp hz)
      have hls : (loseStep r p).1 = p := by
        simp [loseStep, hsp, hlen0]
      rw [hls]
      exact ⟨h1, h2⟩
    · have hls : (loseStep r p).1 =
          (if (p.dice.eraseIdx k).length = 0 then
            { p with dice := p.dice.eraseIdx k, eliminated := true }
          else { p with dice := p.dice.eraseIdx k }) := by
        simp only [loseStep, hsp]
      rw [hls]
      split
      next hz =>
        refine ⟨?_, ?_⟩
        · show p.dice.eraseIdx k = [] ↔ true = true
          simp [List.length_eq_zero.mp hz]
        · show p.madeFirstChoice = false → p.dice.eraseIdx k = [4]
          intro hmf
          exact absurd hmf (by simp [hm'])
      next hz =>
        refine ⟨?_, ?_⟩
        · show p.dice.eraseIdx k = [] ↔ p.eliminated = true
          refine iff_of_false (fun hd => hz (by rw [hd]; rfl)) ?_
          simp [helim]
        · show p.madeFirstChoice = false → p.dice.eraseIdx k = [4]
          intro hmf
          exact absurd hmf (by simp [hm'])

theorem inv_lossStep (w : ℕ) (rl : ℕ → ℚ) (ps : List Player) (h : Inv ps) :
    Inv (lossStep w rl ps) := by
  intro i hi
  have hi' : i < ps.length := by
    rw [show lossStep w rl ps = overIdx _ ps from rfl, overIdx_length] at hi
    exact hi
  rw [show lossStep w rl ps = overIdx
    (fun i p => if p.eliminated || i = w then p else (loseStep (rl i) p).1) ps from rfl,
    overIdx_getD _ _ i hi']
  obtain ⟨h1, h2⟩ := h i hi'
  split
  · exact ⟨h1, h2⟩
  next hcond =>
    have helim : (ps.getD i dummyPlayer).eliminated = false := by
      rcases Bool.eq_false_or_eq_true (ps.getD i dummyPlayer).eliminated with he | he
      · exact absurd (by rw [he]; simp) hcond
      · exact he
    exact invP_loseStep (rl i) _ h1 h2 helim

theorem inv_choiceStep (w : ℕ) (c : Choice) (ps : List Player) (h : Inv ps)
    (hw : (ps.getD w dummyPlayer).eliminated = false) : Inv (choiceStep w c ps) := by
  intro i hi
  have hi' : i < ps.length := by
    rw [show choiceStep w c ps = overIdx _ ps from rfl, overIdx_length] at hi
    exact hi
  rw [show choiceStep w c ps = overIdx
    (fun i p => if i = w then (applyChoice c p).1 else p) ps from rfl,
    overIdx_getD _ _ i hi']
  obtain ⟨h1, h2⟩ := h i hi'
  split
  next hiw =>
    subst hiw
    have hdne : (ps.getD i dummyPlayer).dice ≠ [] := fun hd => by
      rw [h1.mp hd] at hw
      cases hw
    constructor
    · refine iff_of_false (applyChoice_dice_ne_nil c _ hdne) ?_
      rw [applyChoice_eliminated, hw]
      simp
    · intro hmf
      rw [applyChoice_madeFirstChoice] at hmf
      cases hmf
  · exact ⟨h1, h2⟩

theorem selectStep_eliminated (sel : ℕ → ℕ) (ps : List Player) (i : ℕ) :
    ((selectStep sel ps).getD i dummyPlayer).eliminated =
      (ps.getD i dummyPlayer).eliminated := by
  by_cases hi : i < ps.length
  · rw [show selectStep sel ps = overIdx
      (fun i p => if p.eliminated then p else { p with chosenDie := sel i }) ps from rfl,
      overIdx_getD _ _ i hi]
    split <;> rfl
  · have hlen : (selectStep sel ps).length = ps.length := overIdx_length _ _
    rw [List.getD_eq_default _ _ (by omega), List.getD_eq_default _ _ (by omega)]

theorem rollStep_eliminated (rand : ℕ → ℕ → ℚ) (ps : List Player) (i : ℕ) :
    ((rollStep rand ps).getD i dummyPlayer).eliminated =
      (ps.getD i dummyPlayer).eliminated := by
  by_cases hi : i < ps.length
  · rw [show rollStep rand ps = overIdx
      (fun i p => if p.eliminated then p else rollForRound (rand i) p) ps from rfl,
      overIdx_getD _ _ i hi]
    split
    · rfl
    · rw [rollForRound_eliminated]
  · have hlen : (rollStep rand ps).length = ps.length := overIdx_length _ _
    rw [List.getD_eq_default _ _ (by omega), List.getD_eq_default _ _ (by omega)]

theorem lossStep_eliminated_at_w (w : ℕ) (rl : ℕ → ℚ) (ps : List Player) :
    ((lossStep w rl ps).getD w dummyPlayer).eliminated =
      (ps.getD w dummyPlayer).eliminated := by
  by_cases hi : w < ps.length
  · rw [show lossStep w rl ps = overIdx
      (fun i p => if p.eliminated || i = w then p else (loseStep (rl i) p).1) ps from rfl,
      overIdx_getD _ _ w hi]
    simp
  · have hlen : (lossStep w rl ps).length = ps.length := overIdx_length _ _
    rw [List.getD_eq_default _ _ (by omega), List.getD_eq_default _ _ (by omega)]

theorem inv_stepGame (sel : ℕ → ℕ) (rand : ℕ → ℕ → ℚ) (w : ℕ) (rl : ℕ → ℚ)
    (c : Choice) (s : GameState) (h : Inv s.players)
    (hw : (s.players.getD w dummyPlayer).eliminated = false) :
    Inv (stepGame sel rand w rl c s).players := by
  show Inv (choiceStep w c (lossStep w rl (rollStep rand (selectStep sel s.players))))
  apply inv_choiceStep
  · exact inv_lossStep _ _ _ (inv_rollStep _ _ (inv_selectStep _ _ h))
  · rw [lossStep_eliminated_at_w, rollStep_eliminated, selectStep_eliminated]
    exact hw

theorem reachable_inv (s : GameState) (h : Reachable s) : Inv s.players := by
  induction h with
  | init names =>
      intro i hi
      have hmem := getD_mem (l := (initState names).players) dummyPlayer hi
      have hall : ∀ p ∈ (initState names).players, InvP p := by
        intro p hp
        simp only [initState, List.mem_cons, List.mem_map] at hp
        rcases hp with rfl | ⟨n, _, rfl⟩
        · exact ⟨by simp [mkPlayer], fun _ => by simp [mkPlayer]⟩
        · exact ⟨by simp [mkPlayer], fun _ => by simp [mkPlayer]⟩
      exact hall _ hmem
  | step s sel rand w rl c hw h ih => exact inv_stepGame sel rand w rl c s ih hw

/-- C8: in every reachable session state — in particular at every observable
point between rounds, the states the `Reachable` relation steps through —
each player's `dice` is empty exactly when that player is eliminated. -/
theorem dice_empty_iff_eliminated (s : GameState) (h : Reachable s) :
    ∀ p ∈ s.players, (p.dice = [] ↔ p.eliminated = true) := by
  intro p hp
  obtain ⟨i, hi, rfl⟩ := List.mem_iff_getElem.mp hp
  have h2 := reachable_inv s h i hi
  rw [List.getD_eq_getElem _ _ hi] at h2
  exact h2.1

/-- C8 witness: the invariant read back off a concrete freshly initialised
two-player session. -/
theorem dice_empty_iff_eliminated_witness :
    ((mkPlayer "You" true).dice = [] ↔ (mkPlayer "You" true).eliminated = true) :=
  dice_empty_iff_eliminated (initState ["Aria"]) (Reachable.init ["Aria"])
    (mkPlayer "You" true) (by simp [initState])

/-- C9: in every reachable session state, a player who has not yet made
their first choice (`madeFirstChoice = false`, i.e. still protected) holds
exactly one lowest-tier die: `dice = [4]`. -/
theorem protected_player_holds_single_d4 (s : GameState) (h : Reachable s) :
    ∀ p ∈ s.players, p.madeFirstChoice = false → p.dice = [4] := by
  intro p hp hm
  obtain ⟨i, hi, rfl⟩ := List.mem_iff_getElem.mp hp
  have h2 := reachable_inv s h i hi
  rw [List.getD_eq_getElem _ _ hi] at h2
  exact h2.2 hm

/-- C9 witness: the fresh human player of a concrete initial session. -/
theorem protected_player_holds_single_d4_witness : (mkPlayer "You" true).dice = [4] :=
  protected_player_holds_single_d4 (initState []) (Reachable.init [])
    (mkPlayer "You" true) (by simp [initState]) rfl

end DiceGame
